import Mathlib

/-!
# Verification of the expense-advisor core (`exp.py`)

Shallow embedding of the two algorithmic components of the budgeting
assistant: the proportional expense rebalancer (the overflow pass run on
load and the per-slider redistribution loop) and the semantic FAQ
matcher with its error handling around the external embedding and
text-generation calls.

Budgets are lists of integer amounts (one entry per category, in the
fixed iteration order of the dictionary in the source).  The Python
`int(...)` truncation of an exact ratio is modelled by `Int.tdiv` (truncation
toward zero); all amounts are Python integers, modelled by `ℤ`.
-/

namespace ExpAdvisor

/-- One step of the slider rebalance loop
(`expenses[k] = max(0, expenses[k] - int(proportion * delta))`, where
`proportion = expenses[k] / total_others`). -/
def shrink (delta sumOthers x : ℤ) : ℤ :=
  max 0 (x - Int.tdiv (x * delta) sumOthers)

/-- Apply-edit: the module-level slider rebalance loop (source lines
141-160).  If the slider value is unchanged nothing happens; otherwise
the edited category is set to `v` and every *other* category `k` is
replaced by `max(0, e_k - int(e_k / total_others * delta))`, guarded by
`total_others > 0`.  Setting index `i` after mapping `shrink` over the
whole list realises the loop over `other_keys`. -/
def applyEdit (e : List ℤ) (i : ℕ) (v : ℤ) : List ℤ :=
  if v = e.getD i 0 then e
  else if 0 < (e.eraseIdx i).sum then
    (e.map (shrink (v - e.getD i 0) (e.eraseIdx i).sum)).set i v
  else e.set i v

/-- Normalize-on-load: the module-level overflow rebalance pass (source
lines 120-126).  When the total exceeds the income, every category
(including any just-edited one) loses
`int(e_k / total * overflow)` and is clamped at 0. -/
def normalize (income : ℤ) (e : List ℤ) : List ℤ :=
  if 0 < e.sum - income then
    e.map (fun x => max 0 (x - Int.tdiv (x * (e.sum - income)) e.sum))
  else e

/-- A user interaction that touches the budget: either a slider edit of
category `i` to value `v`, or a script re-run triggering the
overflow rebalance pass. -/
inductive Op where
  | edit (i : ℕ) (v : ℤ)
  | reload
deriving DecidableEq

/-- The budget after one interaction. -/
def budgetStep (income : ℤ) (e : List ℤ) : Op → List ℤ
  | .edit i v => applyEdit e i v
  | .reload => normalize income e

/-- The budget after a sequence of interactions. -/
def budgetRun (income : ℤ) (e : List ℤ) (ops : List Op) : List ℤ :=
  ops.foldl (budgetStep income) e

/-- Slider edits are constrained by the UI to the range `[0, income]`;
we only track the lower bound, which is what the invariants need. -/
def opNonneg : Op → Bool
  | .edit _ v => 0 ≤ v
  | .reload => true

/-- First index attaining the maximum of a list of similarity scores
(`similarities.argmax()` on the tensor of cosine similarities). -/
def argmaxIdx : List ℚ → ℕ
  | [] => 0
  | [_] => 0
  | x :: y :: ys =>
      let j := argmaxIdx (y :: ys)
      if (y :: ys).getD j 0 ≤ x then 0 else j + 1

/-- Model of `get_pretrained_answer` (source lines 50-57).  The external
embedding model and `util.cos_sim` are opaque collaborators, so the
function is parametrised by the outcome of computing the similarity
scores of the query against each catalog question: an error when the
embedding call raised, otherwise the list of scores.  An uncaught
error propagates (the source has no `try`/`except` here).  On success
the answer of the first best-scoring catalog entry is returned when the
best score is strictly above `0.6`, and `none` otherwise. -/
def get_pretrained_answer (catalog : List (String × String))
    (simRes : Except String (List ℚ)) : Except String (Option String) :=
  match simRes with
  | .error err => .error err
  | .ok sims =>
      let best := sims.getD (argmaxIdx sims) 0
      if (3 : ℚ) / 5 < best then
        .ok (some (catalog.getD (argmaxIdx sims) ("", "")).2)
      else .ok none

/-- Model of `get_gemini_advice` (source lines 59-88), parametrised by the
outcome of the opaque `generate_content` call on the budget prompt.
The `try`/`except` turns any exception into a formatted string. -/
def get_gemini_advice (genRes : Except String String) : String :=
  match genRes with
  | .ok t => t
  | .error err => "⚠️ Error getting AI advice: " ++ err

/-- Model of `rephrase_pretrained_answer` (source lines 91-102), parametrised by
the outcome of the opaque `generate_content` call on the rephrasing
prompt.  The `try`/`except` turns any exception into a formatted
string. -/
def rephrase_pretrained_answer (genRes : Except String String) : String :=
  match genRes with
  | .ok t => t
  | .error err => "⚠️ Error refining answer: " ++ err

/-- The question handler (source lines 166-173): on a catalog hit the
canned answer is rephrased, on a miss free-form advice is generated;
the budget is not touched.  An error from the matcher propagates
uncaught.  Returns the displayed text together with the budget after
the interaction. -/
def handleQuestion (catalog : List (String × String)) (e : List ℤ)
    (simRes : Except String (List ℚ))
    (rephraseRes genRes : Except String String) :
    Except String (String × List ℤ) :=
  match get_pretrained_answer catalog simRes with
  | .error err => .error err
  | .ok (some _) => .ok (rephrase_pretrained_answer rephraseRes, e)
  | .ok none => .ok (get_gemini_advice genRes, e)

/-- The advice button handler (source lines 175-178): generates advice
from the budget snapshot and displays it; the budget is not touched. -/
def adviceButton (e : List ℤ) (genRes : Except String String) :
    String × List ℤ :=
  (get_gemini_advice genRes, e)

end ExpAdvisor

namespace ExpAdvisor

/-- C1: with Budget `{a:50, b:30, c:20}` and an edit of `a` to `70`
(delta 20, the other two categories summing 50), the slider rebalance
loop reduces `b` by `⌊20·30/50⌋ = 12` to `18` and `c` by
`⌊20·20/50⌋ = 8` to `12`, so the final budget is `{a:70, b:18, c:12}`,
whose sum is exactly `100`, the income. -/
theorem applyEdit_three_category_scenario :
    applyEdit [50, 30, 20] 0 70 = [70, 18, 12] ∧
    (applyEdit [50, 30, 20] 0 70).sum = 100 := by
  constructor <;> decide

/-- Summing a pointwise-dominated mapped list. -/
theorem sum_map_le {l : List ℤ} {f g : ℤ → ℤ} (h : ∀ x ∈ l, f x ≤ g x) :
    (l.map f).sum ≤ (l.map g).sum := by
  induction l with
  | nil => simp
  | cons a t ih =>
      simp only [List.map_cons, List.sum_cons]
      have h1 := h a (by simp)
      have h2 := ih fun x hx => h x (by simp [hx])
      omega

/-- Summing an affine image of a list. -/
theorem sum_map_affine (l : List ℤ) (c d : ℤ) :
    (l.map (fun x => x * c + d)).sum = l.sum * c + (l.length : ℤ) * d := by
  induction l with
  | nil => simp
  | cons a t ih =>
      simp only [List.map_cons, List.sum_cons, List.length_cons, ih]
      push_cast
      ring

/-- Scaling the sum of a mapped list. -/
theorem sum_map_scale (l : List ℤ) (f : ℤ → ℤ) (c : ℤ) :
    (l.map f).sum * c = (l.map (fun x => f x * c)).sum := by
  induction l with
  | nil => simp
  | cons a t ih =>
      simp only [List.map_cons, List.sum_cons, add_mul, ih]

/-- Per-category bound for the overflow pass: scaled by the old total
`t`, the shrunk amount is at most `x * income` plus the rounding
remainder, which is below `t`. -/
theorem shrinkLoad_mul_le {x t income : ℤ} (hx : 0 ≤ x) (hI : 0 ≤ income)
    (ht : 0 < t) (hov : 0 < t - income) :
    max 0 (x - Int.tdiv (x * (t - income)) t) * t ≤ x * income + (t - 1) := by
  have hnum : 0 ≤ x * (t - income) := mul_nonneg hx (le_of_lt hov)
  rw [Int.tdiv_eq_ediv hnum (le_of_lt ht)]
  have hle : x * (t - income) / t ≤ x := by
    have h1 : x * (t - income) ≤ x * t := by nlinarith
    calc x * (t - income) / t ≤ x * t / t := Int.ediv_le_ediv ht h1
    _ = x := Int.mul_ediv_cancel x (ne_of_gt ht)
  rw [max_eq_right (by omega)]
  have hemod := Int.emod_def (x * (t - income)) t
  have hlt := Int.emod_lt_of_pos (x * (t - income)) ht
  have hkey : (x - x * (t - income) / t) * t
      = x * income + x * (t - income) % t := by
    have h2 : t * (x * (t - income) / t)
        = x * (t - income) - x * (t - income) % t := by linarith
    calc (x - x * (t - income) / t) * t
        = x * t - t * (x * (t - income) / t) := by ring
      _ = x * t - (x * (t - income) - x * (t - income) % t) := by rw [h2]
      _ = x * income + x * (t - income) % t := by ring
  rw [hkey]
  linarith

/-- C4: one Normalize-on-load pass over a budget of `n` non-negative
amounts with non-negative income leaves a total of at most
`income + (n - 1)`: the floor-rounding slack is below one unit per
category, so over-allocation beyond `n - 1` units never remains. -/
theorem normalize_sum_bound (income : ℤ) (e : List ℤ) (hI : 0 ≤ income)
    (he : ∀ x ∈ e, 0 ≤ x) (hne : e ≠ []) :
    (normalize income e).sum ≤ income + ((e.length : ℤ) - 1) := by
  have hn1 : 1 ≤ (e.length : ℤ) := by
    have h0 : 0 < e.length := List.length_pos.mpr hne
    exact_mod_cast h0
  unfold normalize
  split
  case isTrue h =>
    have ht : 0 < e.sum := by linarith
    have hstep : ∀ x ∈ e,
        (fun x => max 0 (x - Int.tdiv (x * (e.sum - income)) e.sum)) x * e.sum
          ≤ (fun x => x * income + (e.sum - 1)) x :=
      fun x hx => shrinkLoad_mul_le (he x hx) hI ht h
    have hSt : (e.map (fun x =>
        max 0 (x - Int.tdiv (x * (e.sum - income)) e.sum))).sum * e.sum
          ≤ e.sum * income + (e.length : ℤ) * (e.sum - 1) := by
      rw [sum_map_scale]
      calc (e.map (fun x =>
            (fun x => max 0 (x - Int.tdiv (x * (e.sum - income)) e.sum)) x
              * e.sum)).sum
          ≤ (e.map (fun x => x * income + (e.sum - 1))).sum := sum_map_le hstep
        _ = e.sum * income + (e.length : ℤ) * (e.sum - 1) :=
            sum_map_affine e income (e.sum - 1)
    have hring : (income + (e.length : ℤ)) * e.sum
        - (e.sum * income + (e.length : ℤ) * (e.sum - 1)) = (e.length : ℤ) := by
      ring
    have hlt2 : (e.map (fun x =>
        max 0 (x - Int.tdiv (x * (e.sum - income)) e.sum))).sum * e.sum
          < (income + (e.length : ℤ)) * e.sum := by linarith
    have hS := lt_of_mul_lt_mul_right hlt2 (le_of_lt ht)
    linarith
  case isFalse h =>
    linarith [not_lt.mp h]

/-- C3 amended (valid-budget half): if the allocated total does not
exceed the income, the overflow pass changes nothing. -/
theorem normalize_valid_noop (income : ℤ) (e : List ℤ)
    (h : e.sum ≤ income) : normalize income e = e := by
  unfold normalize
  rw [if_neg (by omega)]

/-- Each category produced by the slider rebalance loop is non-negative
when the edit value is, thanks to the `max(0, ...)` clamp. -/
theorem applyEdit_nonneg (e : List ℤ) (i : ℕ) (v : ℤ)
    (he : ∀ x ∈ e, 0 ≤ x) (hv : 0 ≤ v) : ∀ x ∈ applyEdit e i v, 0 ≤ x := by
  unfold applyEdit
  split
  · exact he
  · split
    · intro x hx
      rcases List.mem_or_eq_of_mem_set hx with hmem | rfl
      · rcases List.mem_map.mp hmem with ⟨y, hy, rfl⟩
        exact le_max_left 0 _
      · exact hv
    · intro x hx
      rcases List.mem_or_eq_of_mem_set hx with hmem | rfl
      · exact he x hmem
      · exact hv

/-- Each category produced by the overflow pass is non-negative, thanks
to the `max(0, ...)` clamp. -/
theorem normalize_nonneg (income : ℤ) (e : List ℤ)
    (he : ∀ x ∈ e, 0 ≤ x) : ∀ x ∈ normalize income e, 0 ≤ x := by
  unfold normalize
  split
  · intro x hx
    rcases List.mem_map.mp hx with ⟨y, hy, rfl⟩
    exact le_max_left 0 _
  · exact he

/-- One interaction preserves non-negativity of the budget. -/
theorem budgetStep_nonneg (income : ℤ) (e : List ℤ) (o : Op)
    (he : ∀ x ∈ e, 0 ≤ x) (ho : opNonneg o = true) :
    ∀ x ∈ budgetStep income e o, 0 ≤ x := by
  cases o with
  | edit i v => exact applyEdit_nonneg e i v he (by simpa [opNonneg] using ho)
  | reload => exact normalize_nonneg income e he

/-- C5: starting from a budget of non-negative amounts, any sequence of
slider edits (each with a non-negative new value) and overflow passes
keeps every category amount non-negative: neither the per-edit
redistribution nor Normalize-on-load ever produces a negative amount. -/
theorem budgetRun_nonneg (income : ℤ) (e : List ℤ) (ops : List Op)
    (he : ∀ x ∈ e, 0 ≤ x) (hops : ∀ o ∈ ops, opNonneg o = true) :
    ∀ x ∈ budgetRun income e ops, 0 ≤ x := by
  induction ops generalizing e with
  | nil => simpa [budgetRun] using he
  | cons o t ih =>
      have h1 := budgetStep_nonneg income e o he (hops o (by simp))
      have h2 := ih (budgetStep income e o) h1 fun o ho => hops o (by simp [ho])
      simpa [budgetRun, List.foldl_cons] using h2

/-- Witness for C5 at a concrete run: income 5, budget `[3, 2]`, an
edit raising category 0 to 9, a reload, and an edit zeroing
category 1. -/
theorem budgetRun_nonneg_witness :
    (∀ x ∈ ([3, 2] : List ℤ), 0 ≤ x) ∧
    (∀ o ∈ [Op.edit 0 9, Op.reload, Op.edit 1 0], opNonneg o = true) ∧
    (∀ x ∈ budgetRun 5 [3, 2] [Op.edit 0 9, Op.reload, Op.edit 1 0], 0 ≤ x) :=
  ⟨by decide, by decide,
    budgetRun_nonneg 5 [3, 2] [Op.edit 0 9, Op.reload, Op.edit 1 0]
      (by decide) (by decide)⟩

/-- Witness for C4 at the concrete input income 3, budget `[5, 5]`:
the pass yields `[2, 2]`, whose sum 4 meets the bound `3 + (2 - 1)`. -/
theorem normalize_sum_bound_witness :
    (0 : ℤ) ≤ 3 ∧ (∀ x ∈ ([5, 5] : List ℤ), 0 ≤ x) ∧
    ([5, 5] : List ℤ) ≠ [] ∧
    (normalize 3 [5, 5]).sum ≤ 3 + ((([5, 5] : List ℤ).length : ℤ) - 1) :=
  ⟨by decide, by decide, by decide,
    normalize_sum_bound 3 [5, 5] (by decide) (by decide) (by decide)⟩

/-- Witness for the amended C3 at the concrete input income 10,
budget `[2, 3]` (sum 5 ≤ 10): the pass changes nothing. -/
theorem normalize_valid_noop_witness :
    ([2, 3] : List ℤ).sum ≤ 10 ∧ normalize 10 [2, 3] = [2, 3] :=
  ⟨by decide, normalize_valid_noop 10 [2, 3] (by decide)⟩

/-- Inside the list, `getD` agrees with indexing inside the list. -/
theorem getD_of_lt (l : List ℤ) (j : ℕ) (h : j < l.length) :
    l.getD j 0 = l[j] := by
  simp [List.getD_eq_getElem?_getD, List.getElem?_eq_getElem h]

/-- The slider rebalance loop does not change the number of
categories. -/
theorem applyEdit_length (e : List ℤ) (i : ℕ) (v : ℤ) :
    (applyEdit e i v).length = e.length := by
  unfold applyEdit
  split_ifs <;> simp

/-- If every category other than `i` holds 0, the sum of the others
is 0. -/
theorem eraseIdx_sum_zero :
    ∀ (e : List ℤ) (i : ℕ),
      (∀ j (hj : j < e.length), j ≠ i → e[j] = 0) → (e.eraseIdx i).sum = 0
  | [], _, _ => by simp
  | a :: t, 0, h => by
      rw [List.eraseIdx_cons_zero]
      refine List.sum_eq_zero fun x hx => ?_
      obtain ⟨j, hj, rfl⟩ := List.mem_iff_getElem.mp hx
      exact h (j + 1) (by simpa using hj) (by omega)
  | a :: t, i + 1, h => by
      rw [List.eraseIdx_cons_succ, List.sum_cons,
        eraseIdx_sum_zero t i fun j hj hne =>
          h (j + 1) (by simpa using hj) (by omega)]
      have ha := h 0 (by simp) (by omega)
      simpa using ha

/-- C7: when every category other than the edited one is already 0
(so the denominator of the proportional split is 0), the edit divides
by nothing, distributes no reduction, and leaves category `i` at
exactly the value `v` set by the user while the others keep their
(zero) amounts. -/
theorem applyEdit_zero_others (e : List ℤ) (i : ℕ) (v : ℤ)
    (hi : i < e.length)
    (hz : ∀ j (hj : j < e.length), j ≠ i → e[j] = 0) :
    ∀ j, j < e.length →
      (applyEdit e i v).getD j 0 = if j = i then v else e.getD j 0 := by
  have hso : (e.eraseIdx i).sum = 0 := eraseIdx_sum_zero e i hz
  unfold applyEdit
  split
  case isTrue hveq =>
    intro j hj
    by_cases hji : j = i
    · subst hji
      rw [if_pos rfl, ← hveq]
    · rw [if_neg hji]
  case isFalse hveq =>
    rw [if_neg (by omega : ¬0 < (e.eraseIdx i).sum)]
    intro j hj
    by_cases hji : j = i
    · subst hji
      rw [if_pos rfl, getD_of_lt _ _ (by simpa using hj),
        List.getElem_set_self]
    · rw [if_neg hji, getD_of_lt _ _ (by simpa using hj), getD_of_lt _ _ hj,
        List.getElem_set_ne (fun h => hji h.symm)]

/-- Witness for C7: budget `[0, 5, 0]`, editing category 1 to 9 with
both other categories at 0 leaves `[0, 9, 0]`. -/
theorem applyEdit_zero_others_witness :
    1 < ([0, 5, 0] : List ℤ).length ∧
    (∀ j (hj : j < ([0, 5, 0] : List ℤ).length), j ≠ 1 →
      ([0, 5, 0] : List ℤ)[j] = 0) ∧
    (∀ j, j < ([0, 5, 0] : List ℤ).length →
      (applyEdit [0, 5, 0] 1 9).getD j 0
        = if j = 1 then 9 else ([0, 5, 0] : List ℤ).getD j 0) :=
  ⟨by decide, by decide,
    applyEdit_zero_others [0, 5, 0] 1 9 (by decide) (by decide)⟩

/-- The value of a non-edited category after the slider rebalance loop,
in the proper-redistribution branch. -/
theorem applyEdit_getD_other (e : List ℤ) (i : ℕ) (v : ℤ) (j : ℕ)
    (hj : j < e.length) (hji : j ≠ i) (hv : v ≠ e.getD i 0)
    (hso : 0 < (e.eraseIdx i).sum) :
    (applyEdit e i v).getD j 0
      = max 0 (e.getD j 0
          - Int.tdiv (e.getD j 0 * (v - e.getD i 0)) (e.eraseIdx i).sum) := by
  unfold applyEdit
  rw [if_neg hv, if_pos hso, getD_of_lt _ _ (by simpa using hj),
    List.getElem_set_ne (fun h => hji h.symm), List.getElem_map,
    getD_of_lt _ _ hj]
  rfl

/-- C2 counterexample: with budget `{a:10, b:10, c:10}` and income 100,
editing `a` to 20 leaves a post-edit sum of 40, well below the income,
yet the loop still shrinks the other categories to 5 each: the
redistribution is not gated on overflow. -/
theorem applyEdit_reduces_without_overflow :
    ([20, 10, 10] : List ℤ).sum ≤ 100 ∧
    applyEdit [10, 10, 10] 0 20 = [20, 5, 5] ∧
    (applyEdit [10, 10, 10] 0 20).getD 1 0 ≠ 10 := by
  refine ⟨by decide, by decide, by decide⟩

/-- C2 amended: the slider rebalance loop redistributes the delta
unconditionally — no overflow test against the income occurs.  When
the edited value changes and the other categories sum to a positive
amount, the other categories all keep their previous amounts exactly
when each proportional share `int(e_j * delta / sum_others)` truncates
to zero; whether the post-edit total exceeds the income is
irrelevant. -/
theorem applyEdit_frame_iff (e : List ℤ) (i : ℕ) (v : ℤ)
    (he : ∀ x ∈ e, 0 ≤ x) (hv : v ≠ e.getD i 0)
    (hso : 0 < (e.eraseIdx i).sum) :
    (∀ j, j < e.length → j ≠ i →
        (applyEdit e i v).getD j 0 = e.getD j 0) ↔
      (∀ j, j < e.length → j ≠ i →
        Int.tdiv (e.getD j 0 * (v - e.getD i 0)) (e.eraseIdx i).sum = 0) := by
  have hx : ∀ j, j < e.length → 0 ≤ e.getD j 0 := fun j hj => by
    rw [getD_of_lt _ _ hj]
    exact he _ (List.getElem_mem hj)
  constructor
  · intro hpres j hj hji
    have hp := hpres j hj hji
    rw [applyEdit_getD_other e i v j hj hji hv hso] at hp
    have hxj := hx j hj
    by_cases hT : 0 ≤ e.getD j 0
        - Int.tdiv (e.getD j 0 * (v - e.getD i 0)) (e.eraseIdx i).sum
    · rw [max_eq_right hT] at hp
      omega
    · rw [max_eq_left (by omega)] at hp
      have hj0 : e.getD j 0 = 0 := by omega
      rw [hj0, zero_mul, Int.zero_tdiv] at hT
      omega
  · intro hzero j hj hji
    rw [applyEdit_getD_other e i v j hj hji hv hso, hzero j hj hji, sub_zero,
      max_eq_right (hx j hj)]

/-- Witness for the amended C2: budget `[10, 10, 10]`, editing
category 0 to 11 (delta 1): every share `⌊10·1/20⌋` truncates to 0 and
indeed the other categories are untouched. -/
theorem applyEdit_frame_iff_witness :
    (∀ x ∈ ([10, 10, 10] : List ℤ), 0 ≤ x) ∧
    (11 : ℤ) ≠ ([10, 10, 10] : List ℤ).getD 0 0 ∧
    0 < (([10, 10, 10] : List ℤ).eraseIdx 0).sum ∧
    ((∀ j, j < ([10, 10, 10] : List ℤ).length → j ≠ 0 →
        (applyEdit [10, 10, 10] 0 11).getD j 0
          = ([10, 10, 10] : List ℤ).getD j 0) ↔
      (∀ j, j < ([10, 10, 10] : List ℤ).length → j ≠ 0 →
        Int.tdiv (([10, 10, 10] : List ℤ).getD j 0
            * (11 - ([10, 10, 10] : List ℤ).getD 0 0))
          (([10, 10, 10] : List ℤ).eraseIdx 0).sum = 0)) :=
  ⟨by decide, by decide, by decide,
    applyEdit_frame_iff [10, 10, 10] 0 11 (by decide) (by decide) (by decide)⟩

/-- C10: lowering a slider raises the others.  When category `i` is
lowered (`v` below the old value) and the other categories sum to a
positive amount, every other category `j` gains exactly the truncation
of `|delta| * e_j / sum_others`; in particular no other category ever
decreases on a lowering edit. -/
theorem applyEdit_lower_raises (e : List ℤ) (i : ℕ) (v : ℤ)
    (he : ∀ x ∈ e, 0 ≤ x) (hv : v < e.getD i 0)
    (hso : 0 < (e.eraseIdx i).sum) :
    ∀ j, j < e.length → j ≠ i →
      (applyEdit e i v).getD j 0
          = e.getD j 0
            + e.getD j 0 * (e.getD i 0 - v) / (e.eraseIdx i).sum ∧
        e.getD j 0 ≤ (applyEdit e i v).getD j 0 := by
  intro j hj hji
  have hx : 0 ≤ e.getD j 0 := by
    rw [getD_of_lt _ _ hj]
    exact he _ (List.getElem_mem hj)
  rw [applyEdit_getD_other e i v j hj hji (ne_of_lt hv) hso]
  have habs : e.getD j 0 * (v - e.getD i 0)
      = -(e.getD j 0 * (e.getD i 0 - v)) := by ring
  rw [habs, Int.neg_tdiv,
    Int.tdiv_eq_ediv (mul_nonneg hx (by omega)) (le_of_lt hso), sub_neg_eq_add]
  have hq : 0 ≤ e.getD j 0 * (e.getD i 0 - v) / (e.eraseIdx i).sum :=
    Int.ediv_nonneg (mul_nonneg hx (by omega)) (le_of_lt hso)
  rw [max_eq_right (by omega)]
  omega

/-- Witness for C10: budget `[10, 30, 20]`, lowering category 0 from 10
to 4 (delta −6, the others summing 50) raises `b` by `⌊6·30/50⌋ = 3`
to 33 and `c` by `⌊6·20/50⌋ = 2` to 22. -/
theorem applyEdit_lower_raises_witness :
    (∀ x ∈ ([10, 30, 20] : List ℤ), 0 ≤ x) ∧
    (4 : ℤ) < ([10, 30, 20] : List ℤ).getD 0 0 ∧
    0 < (([10, 30, 20] : List ℤ).eraseIdx 0).sum ∧
    (∀ j, j < ([10, 30, 20] : List ℤ).length → j ≠ 0 →
      (applyEdit [10, 30, 20] 0 4).getD j 0
          = ([10, 30, 20] : List ℤ).getD j 0
            + ([10, 30, 20] : List ℤ).getD j 0
                * (([10, 30, 20] : List ℤ).getD 0 0 - 4)
              / (([10, 30, 20] : List ℤ).eraseIdx 0).sum ∧
        ([10, 30, 20] : List ℤ).getD j 0
          ≤ (applyEdit [10, 30, 20] 0 4).getD j 0) :=
  ⟨by decide, by decide, by decide,
    applyEdit_lower_raises [10, 30, 20] 0 4 (by decide) (by decide) (by decide)⟩

/-- C3 counterexample: the overflow pass is not idempotent.  With
income 2 and budget `[1, 1, 3]`, one pass yields `[1, 1, 2]`
(sum 4, still above income), and a second pass yields `[1, 1, 1]`,
so applying Normalize-on-load twice differs from applying it once. -/
theorem normalize_not_idempotent :
    normalize 2 [1, 1, 3] = [1, 1, 2] ∧
    normalize 2 (normalize 2 [1, 1, 3]) = [1, 1, 1] ∧
    normalize 2 (normalize 2 [1, 1, 3]) ≠ normalize 2 [1, 1, 3] := by
  refine ⟨by decide, by decide, by decide⟩

/-- The argmax index is in range. -/
theorem argmaxIdx_lt : ∀ (l : List ℚ), l ≠ [] → argmaxIdx l < l.length
  | [_], _ => by simp [argmaxIdx]
  | x :: y :: ys, _ => by
      simp only [argmaxIdx]
      split
      · simp
      · have hrec := argmaxIdx_lt (y :: ys) (by simp)
        simp only [List.length_cons] at *
        omega

/-- The argmax index attains the maximum similarity score. -/
theorem argmaxIdx_attains :
    ∀ (l : List ℚ) (j : ℕ) (hj : j < l.length),
      l[j] ≤ l.getD (argmaxIdx l) 0
  | [x], j, hj => by
      have hz : j = 0 := by
        simp only [List.length_singleton] at hj
        omega
      subst hz
      simp [argmaxIdx]
  | x :: y :: ys, j, hj => by
      simp only [argmaxIdx]
      split
      case isTrue hc =>
        rw [List.getD_cons_zero]
        cases j with
        | zero => simp
        | succ k =>
            have hk : k < (y :: ys).length := by
              simpa [Nat.succ_lt_succ_iff] using hj
            calc (x :: y :: ys)[k + 1] = (y :: ys)[k] := by simp
              _ ≤ (y :: ys).getD (argmaxIdx (y :: ys)) 0 :=
                  argmaxIdx_attains (y :: ys) k hk
              _ ≤ x := hc
      case isFalse hc =>
        rw [List.getD_cons_succ]
        cases j with
        | zero => simpa using le_of_not_le hc
        | succ k =>
            have hk : k < (y :: ys).length := by
              simpa [Nat.succ_lt_succ_iff] using hj
            simpa using argmaxIdx_attains (y :: ys) k hk

/-- C6: the matcher selects a catalog index attaining the maximum
cosine-similarity score and returns the corresponding answer exactly
when that best score is strictly above the `0.6` threshold, and the
no-match sentinel `none` exactly when it is not. -/
theorem matcher_threshold (catalog : List (String × String)) (s : List ℚ)
    (hs : s ≠ []) :
    argmaxIdx s < s.length ∧
    (∀ j (hj : j < s.length), s[j] ≤ s.getD (argmaxIdx s) 0) ∧
    (get_pretrained_answer catalog (Except.ok s)
        = Except.ok (some (catalog.getD (argmaxIdx s) ("", "")).2)
      ↔ (3 : ℚ) / 5 < s.getD (argmaxIdx s) 0) ∧
    (get_pretrained_answer catalog (Except.ok s) = Except.ok none
      ↔ s.getD (argmaxIdx s) 0 ≤ (3 : ℚ) / 5) := by
  have hbody : get_pretrained_answer catalog (Except.ok s)
      = if (3 : ℚ) / 5 < s.getD (argmaxIdx s) 0 then
          Except.ok (some (catalog.getD (argmaxIdx s) ("", "")).2)
        else Except.ok none := rfl
  refine ⟨argmaxIdx_lt s hs, fun j hj => argmaxIdx_attains s j hj, ?_, ?_⟩
  · rw [hbody]
    split_ifs with h
    · exact iff_of_true rfl h
    · exact iff_of_false (by simp) h
  · rw [hbody]
    split_ifs with h
    · exact iff_of_false (by simp) (not_le.mpr h)
    · exact iff_of_true rfl (not_lt.mp h)

/-- Witness for C6: a single catalog entry with similarity score 1
(an identical query), which is above the threshold and matches. -/
theorem matcher_threshold_witness :
    ([(1 : ℚ)] ≠ []) ∧
    (argmaxIdx [(1 : ℚ)] < ([(1 : ℚ)] : List ℚ).length ∧
      (∀ j (hj : j < ([(1 : ℚ)] : List ℚ).length),
        ([(1 : ℚ)] : List ℚ)[j]
          ≤ ([(1 : ℚ)] : List ℚ).getD (argmaxIdx [(1 : ℚ)]) 0) ∧
      (get_pretrained_answer [("q", "a")] (Except.ok [(1 : ℚ)])
          = Except.ok (some (([("q", "a")] : List (String × String)).getD
              (argmaxIdx [(1 : ℚ)]) ("", "")).2)
        ↔ (3 : ℚ) / 5 < ([(1 : ℚ)] : List ℚ).getD (argmaxIdx [(1 : ℚ)]) 0) ∧
      (get_pretrained_answer [("q", "a")] (Except.ok [(1 : ℚ)])
          = Except.ok none
        ↔ ([(1 : ℚ)] : List ℚ).getD (argmaxIdx [(1 : ℚ)]) 0 ≤ (3 : ℚ) / 5)) :=
  ⟨by decide, matcher_threshold [("q", "a")] [(1 : ℚ)] (by decide)⟩

/-- C8 counterexample: when the embedding call fails, the question
handler does not degrade to free-form generation — the error escapes
the handler (the interaction aborts), even though a generation result
was available. -/
theorem embedding_failure_crashes :
    handleQuestion [("q", "a")] [3, 2] (Except.error "embedding down")
        (Except.ok "r") (Except.ok "g")
      = Except.error "embedding down" ∧
    handleQuestion [("q", "a")] [3, 2] (Except.error "embedding down")
        (Except.ok "r") (Except.ok "g")
      ≠ Except.ok (get_gemini_advice (Except.ok "g"), [3, 2]) :=
  ⟨rfl, fun h => nomatch h⟩

/-- C8 amended: an embedding failure propagates uncaught — the matcher
returns the error and the question handler passes it on unchanged
instead of treating it as a no-match; no degradation to free-form
generation happens. -/
theorem embedding_failure_propagates (catalog : List (String × String))
    (e : List ℤ) (err : String) (rephraseRes genRes : Except String String) :
    get_pretrained_answer catalog (Except.error err) = Except.error err ∧
    handleQuestion catalog e (Except.error err) rephraseRes genRes
      = Except.error err :=
  ⟨rfl, rfl⟩

/-- C9: a failing text-generation call is contained.  Both advice
operations return the formatted human-readable error string of the
`except` blocks in the source rather than an error value, and the handlers
leave the budget unchanged: the advice button returns the budget as
is, and the question handler (whose matcher succeeded) always returns
the untouched budget alongside its message, whatever the generation
outcomes were. -/
theorem generation_failure_contained (catalog : List (String × String))
    (e : List ℤ) (sims : List ℚ) (err : String)
    (rephraseRes genRes : Except String String) :
    get_gemini_advice (Except.error err)
        = "⚠️ Error getting AI advice: " ++ err ∧
    rephrase_pretrained_answer (Except.error err)
        = "⚠️ Error refining answer: " ++ err ∧
    adviceButton e (Except.error err)
        = ("⚠️ Error getting AI advice: " ++ err, e) ∧
    (∃ msg, handleQuestion catalog e (Except.ok sims) rephraseRes genRes
        = Except.ok (msg, e)) := by
  refine ⟨rfl, rfl, rfl, ?_⟩
  obtain ⟨oa, hoa⟩ : ∃ oa,
      get_pretrained_answer catalog (Except.ok sims) = Except.ok oa := by
    simp only [get_pretrained_answer]
    split_ifs <;> exact ⟨_, rfl⟩
  unfold handleQuestion
  rw [hoa]
  cases oa with
  | none => exact ⟨_, rfl⟩
  | some a => exact ⟨_, rfl⟩

end ExpAdvisor
